import Mathlib

/-
Verification development for the terminal typing-effect animation engine
(src/src/main.ts).  The TypeScript source is shallowly embedded below:

  * numeric values (delays, jitter factors, random draws, intensities) are
    modelled by the rationals, with the exact arithmetic expressions of the
    source; `Math.floor` becomes the integer floor on the rationals;
  * `Math.random()` is modelled by an explicit stream `s : ℕ → ℚ` of draws,
    consumed left to right in exactly the order the source calls it, with a
    threaded position counter; hypotheses `0 ≤ s q < 1` mirror its codomain;
  * the display buffer `displayText` (an array of strings in the source)
    becomes a `List Cell`, where a cell is blank, a committed literal
    character, or a decorative glyph tagged with its fade intensity
    (`fadeChar` / `chalk` styling is the excluded pure renderer, so a styled
    string is represented by the glyph together with its intensity);
  * terminal writes become trace events; waits record their durations.

The keyboard table, the Braille similarity map and the random-Braille pool
live in the repository file `keyboard.ts`, which is not part of the sources
given here; those three leaves are modelled from the spec and marked as such.
-/

namespace TypingFx

/-- One cell of the display buffer `displayText`: blank (`" "`), a committed
literal character, or a decorative Braille glyph shown with a fade
intensity (the output of `fadeChar(glyph, intensity)`). -/
inductive Cell where
  | blank : Cell
  | lit : Char → Cell
  | shimmer : Char → ℚ → Cell
deriving DecidableEq, Repr

/-- Trace events of one line's animation.  `flushE` is the
`\r${displayText.join("")}` write; `waitContraction` is a
`setTimeout(contractionDelay)`; `waitTyping` is the `setTimeout(delay)` of a
typing frame, recorded by the data that determines the delay: the adjusted
base delay, the squared key distance, and the jitter draw; `writeLine` is the
final `\r${text.padEnd(terminalWidth)}\n` write. -/
inductive Ev where
  | flushE : List Cell → Ev
  | waitContraction : ℚ → Ev
  | waitTyping : ℚ → ℚ → ℚ → Ev
  | writeLine : List Char → Ev
deriving DecidableEq, Repr

/-- The configuration record `TypingEffectConfig` of the source.  All fields
are TypeScript numbers; `overshoot` is additionally used as a buffer length,
so it is modelled as a natural number. -/
structure TypingEffectConfig where
  baseDelay : ℚ
  jitter : ℚ
  keyboardInfluence : ℚ
  keyDelay : ℚ
  brailleAhead : ℚ
  minBrailleAhead : ℚ
  overshoot : ℕ
  minContractionDelay : ℚ
  maxContractionDelay : ℚ
  minAccelerationMultiplier : ℚ
  maxAccelerationMultiplier : ℚ

/-- The recurring idiom `Math.floor(Math.random() * (hi - lo + 1)) + lo`
of the source, at a draw `r`. -/
def drawInt (lo hi r : ℚ) : ℚ := (⌊r * (hi - lo + 1)⌋ : ℚ) + lo

/-- Modelled from the spec: the `keyboardLayout` table of `keyboard.ts`
(not among the given sources) — a static map from lowercase symbols to 2D
integer coordinates, covering letters, digits and punctuation. -/
def keyboardLayout : Char → Option (ℤ × ℤ) := fun c =>
  (([('1', (0, 0)), ('2', (1, 0)), ('3', (2, 0)), ('4', (3, 0)), ('5', (4, 0)),
     ('6', (5, 0)), ('7', (6, 0)), ('8', (7, 0)), ('9', (8, 0)), ('0', (9, 0)),
     ('q', (0, 1)), ('w', (1, 1)), ('e', (2, 1)), ('r', (3, 1)), ('t', (4, 1)),
     ('y', (5, 1)), ('u', (6, 1)), ('i', (7, 1)), ('o', (8, 1)), ('p', (9, 1)),
     ('a', (0, 2)), ('s', (1, 2)), ('d', (2, 2)), ('f', (3, 2)), ('g', (4, 2)),
     ('h', (5, 2)), ('j', (6, 2)), ('k', (7, 2)), ('l', (8, 2)), (';', (9, 2)),
     ('z', (0, 3)), ('x', (1, 3)), ('c', (2, 3)), ('v', (3, 3)), ('b', (4, 3)),
     ('n', (5, 3)), ('m', (6, 3)), (',', (7, 3)), ('.', (8, 3)), ('/', (9, 3))] :
    List (Char × (ℤ × ℤ))).find? (fun p => p.1 = c)).map Prod.snd

/-- The function `getKeyDistance(key1, key2)`: look both keys up after
case-folding; if either is absent return the default distance `1`; otherwise
return the Euclidean distance of the two coordinates.  Keys are single
characters at every call site, so they are embedded as `Char`. -/
noncomputable def getKeyDistance (key1 key2 : Char) : ℝ :=
  match keyboardLayout key1.toLower, keyboardLayout key2.toLower with
  | some pos1, some pos2 =>
      Real.sqrt ((((pos1.1 - pos2.1 : ℤ) : ℝ)) ^ 2 + (((pos1.2 - pos2.2 : ℤ) : ℝ)) ^ 2)
  | _, _ => 1

/-- The squared key distance, used to record typing delays in the trace with
rational data (`getKeyDistance` itself is its square root when both keys are
present, and `1` — whose square is also `1` — when either is absent). -/
def getKeyDistanceSq (key1 key2 : Char) : ℚ :=
  match keyboardLayout key1.toLower, keyboardLayout key2.toLower with
  | some pos1, some pos2 =>
      (((pos1.1 - pos2.1 : ℤ) : ℚ)) ^ 2 + (((pos1.2 - pos2.2 : ℤ) : ℚ)) ^ 2
  | _, _ => 1

/-- The function `normalizeKeyDistanceDelay(distance, delayPerKeyDistance)`:
`distance * delayPerKeyDistance`. -/
def normalizeKeyDistanceDelay (distance delayPerKeyDistance : ℚ) : ℚ :=
  distance * delayPerKeyDistance

/-- The function `getRandomDelay(baseDelay, jitter)` at a draw `r`:
`variance = baseDelay * jitter; baseDelay + r * variance - variance / 2`. -/
def getRandomDelay (baseDelay jitter r : ℚ) : ℚ :=
  baseDelay + r * (baseDelay * jitter) - (baseDelay * jitter) / 2

/-- The function `calculateAccelerationFactor(position, length)`:
`1 - (2 * (position / length) - 1) ^ 2`. -/
def calculateAccelerationFactor (position length : ℚ) : ℚ :=
  1 - (2 * (position / length) - 1) ^ 2

/-- The acceleration-multiplier block of the typing loop: `0` unless both
configured bounds are nonzero, otherwise
`Math.floor(Math.random() * (max - min + 1)) + min` at the draw `r`. -/
def accelerationMultiplier (cfg : TypingEffectConfig) (r : ℚ) : ℚ :=
  if cfg.minAccelerationMultiplier ≠ 0 ∧ cfg.maxAccelerationMultiplier ≠ 0 then
    drawInt cfg.minAccelerationMultiplier cfg.maxAccelerationMultiplier r
  else 0

/-- The adjusted base delay of a typing frame:
`config.baseDelay * (1 - accelerationFactor * accelerationMultiplier)`. -/
def adjustedBaseDelay (cfg : TypingEffectConfig) (accelerationFactor mult : ℚ) : ℚ :=
  cfg.baseDelay * (1 - accelerationFactor * mult)

/-- The pre-jitter delay of a typing frame: the adjusted base delay plus the
keyboard travel delay
`normalizeKeyDistanceDelay(distance, config.keyDelay) * config.keyboardInfluence`. -/
def preJitterDelay (cfg : TypingEffectConfig) (accelerationFactor mult distance : ℚ) : ℚ :=
  adjustedBaseDelay cfg accelerationFactor mult +
    normalizeKeyDistanceDelay distance cfg.keyDelay * cfg.keyboardInfluence

/-- The configuration of the demo entry point `main()` of the source. -/
def demoConfig : TypingEffectConfig :=
  { baseDelay := 10
    jitter := 3
    keyboardInfluence := 3 / 10
    keyDelay := 30
    brailleAhead := 16
    minBrailleAhead := 1
    overshoot := 7
    minContractionDelay := 1
    maxContractionDelay := 20
    minAccelerationMultiplier := 1 / 10
    maxAccelerationMultiplier := 6 }

/-- Modelled from the spec: the `similarBrailleMap` of `keyboard.ts` (not
among the given sources) — a static map from characters to visually similar
Braille glyphs; absent entries fall back to the character itself. -/
def similarBrailleMap : Char → Option Char := fun c =>
  (([('a', '⠁'), ('b', '⠃'), ('c', '⠉'), ('d', '⠙'), ('e', '⠑'),
     ('f', '⠋'), ('g', '⠛'), ('h', '⠓'), ('i', '⠊'), ('j', '⠚')] :
    List (Char × Char)).find? (fun p => p.1 = c)).map Prod.snd

/-- The per-character glyph substitution `similarBrailleMap[char] || char`
used to build `brailleText`. -/
def brailleOfChar (c : Char) : Char := (similarBrailleMap c).getD c

/-- Modelled from the spec: the fixed pool of decorative Braille glyphs that
`getRandomBrailleCharacter` of `keyboard.ts` (not among the given sources)
draws from uniformly. -/
def brailleChars : List Char := ['⠋', '⠙', '⠹', '⠸', '⠼', '⠴', '⠦', '⠧', '⠇', '⠏']

/-- Modelled from the spec: `getRandomBrailleCharacter()` — one uniform draw
from the fixed glyph pool, consuming one random value. -/
def getRandomBrailleCharacter (r : ℚ) : Char :=
  brailleChars.getD (⌊r * brailleChars.length⌋).toNat '⠿'

/-- JavaScript `text.padEnd(width)` on a character list. -/
def padEnd (l : List Char) (width : ℕ) : List Char :=
  l ++ List.replicate (width - l.length) ' '

/-- JavaScript `text.lastIndexOf(" ", fromIdx)` specialised to one needle
character: the greatest index `≤ fromIdx` holding `c`, or `-1`. -/
def lastIndexOfFrom (l : List Char) (c : Char) : ℕ → ℤ
  | 0 => if l.get? 0 = some c then 0 else -1
  | k + 1 => if l.get? (k + 1) = some c then (k + 1 : ℕ) else lastIndexOfFrom l c k

/-- The cut position chosen by one iteration of the line-splitting loop of
`typingEffectWithBrailleLoading`, starting at `start` with per-line capacity
`W = terminalWidth - overshoot`: `end = min(start + W, text.length)`,
moved back to the last space when the cut lands mid-word and that space lies
strictly after `start`. -/
def cutAt (text : List Char) (W start : ℕ) : ℕ :=
  if min (start + W) text.length < text.length ∧
      text.get? (min (start + W) text.length) ≠ some ' ' then
    if lastIndexOfFrom text ' ' (min (start + W) text.length) > (start : ℤ) then
      (lastIndexOfFrom text ' ' (min (start + W) text.length)).toNat
    else min (start + W) text.length
  else min (start + W) text.length

/-- The line-splitting loop of `typingEffectWithBrailleLoading`: while
`start < text.length`, push `text.slice(start, end)` for the chosen cut `end`
and continue from `end + 1`.  `fuel` bounds the recursion; `text.length + 1`
iterations always suffice because `start` strictly increases. -/
def splitLoop (text : List Char) (W : ℕ) : ℕ → ℕ → List (List Char)
  | 0, _ => []
  | fuel + 1, start =>
    if start < text.length then
      ((text.drop start).take (cutAt text W start - start)) ::
        splitLoop text W fuel (cutAt text W start + 1)
    else []

/-- The complete line splitter: capacity `terminalWidth - overshoot`
(the subtraction is the truncated one on ℕ; the source loop only terminates
when `overshoot ≤ width`, which the width-bound theorem assumes). -/
def lineSplit (text : List Char) (width overshoot : ℕ) : List (List Char) :=
  splitLoop text (width - overshoot) (text.length + 1) 0

/-- The mutable state of one line's animation loop: the display buffer, the
`previousChar` variable, and the position of the next `Math.random()` draw
in the stream. -/
structure LineState where
  buf : List Cell
  prev : Option Char
  pos : ℕ
deriving DecidableEq, Repr

/-- One cell update of the shimmer loops (`displayText[j] = fadeChar(...)`):
inside the real text the similar Braille glyph of the character is shown with
one fresh intensity draw; beyond it (overshoot cells) a random Braille glyph
is drawn first and then a fresh intensity, consuming two draws. -/
def shimmerStep (text : List Char) (s : ℕ → ℚ) (st : LineState) (j : ℕ) : LineState :=
  if j < text.length then
    { st with
      buf := st.buf.set j (Cell.shimmer (brailleOfChar (text.getD j ' ')) (s st.pos)),
      pos := st.pos + 1 }
  else
    { st with
      buf := st.buf.set j (Cell.shimmer (getRandomBrailleCharacter (s st.pos)) (s (st.pos + 1))),
      pos := st.pos + 2 }

/-- The window of buffer indices redrawn by a typing frame at index `i`:
`j` from `i + 1` while `j <= i + ahead && j < text.length + overshoot?`,
where `ahead` is the draw
`Math.floor(Math.random() * (brailleAhead - minBrailleAhead + 1)) + minBrailleAhead`
made after the contraction-delay draw and the optional
acceleration-multiplier draw of the same frame. -/
def typingWindow (cfg : TypingEffectConfig) (text : List Char) (isLast : Bool)
    (s : ℕ → ℚ) (st : LineState) (i : ℕ) : List ℕ :=
  List.range' (i + 1)
    ((min ⌊(i : ℚ) + drawInt cfg.minBrailleAhead cfg.brailleAhead
          (s (st.pos + 1 +
            (if cfg.minAccelerationMultiplier ≠ 0 ∧ cfg.maxAccelerationMultiplier ≠ 0
              then 1 else 0)))⌋
        ((text.length + (if isLast then cfg.overshoot else 0) : ℕ) - 1 : ℤ)) -
      (i : ℤ)).toNat

/-- The number of overshoot cells of a buffer that are not blank. -/
def nonblankOvershootCells (buf : List Cell) (len overshoot : ℕ) : ℕ :=
  ((List.range' len overshoot).filter
    (fun k => decide (buf.getD k Cell.blank ≠ Cell.blank))).length

/-- How many `Math.random()` draws the acceleration-multiplier block of one
frame consumes: one when both bounds are nonzero, none otherwise. -/
def accelDrawCount (cfg : TypingEffectConfig) : ℕ :=
  if cfg.minAccelerationMultiplier ≠ 0 ∧ cfg.maxAccelerationMultiplier ≠ 0 then 1 else 0

/-- The state after the shimmer-window loop of a typing frame at index `i`:
the window cells are redrawn in order, starting after the contraction-delay
draw, the optional acceleration draw and the ahead draw of the frame. -/
def typingFoldState (cfg : TypingEffectConfig) (text : List Char) (isLast : Bool)
    (s : ℕ → ℚ) (st : LineState) (i : ℕ) : LineState :=
  (typingWindow cfg text isLast s st i).foldl (shimmerStep text s)
    { st with pos := st.pos + 2 + accelDrawCount cfg }

/-- The state after the re-randomization loop of an overshoot frame at index
`i`: every remaining overshoot cell `k < text.length + overshoot - (i -
text.length)` is redrawn, starting after the contraction-delay draw and the
optional acceleration draw of the frame. -/
def contractionFoldState (cfg : TypingEffectConfig) (text : List Char)
    (s : ℕ → ℚ) (st : LineState) (i : ℕ) : LineState :=
  (List.range' text.length (cfg.overshoot - (i - text.length))).foldl (shimmerStep text s)
    { st with pos := st.pos + 1 + accelDrawCount cfg }

/-- One iteration (index `i`) of the main loop of
`typingLineEffectWithBrailleLoading`: returns the state after the iteration
and the write/wait events it emits, in order.  Mirrors the source exactly:
the contraction-delay draw happens every iteration; the
acceleration-multiplier draw happens whenever both bounds are nonzero; a
typing frame (`i < text.length`) draws the ahead window size, redraws every
window cell, commits cell `i`, flushes and waits a jittered delay; an
overshoot frame (`i ≥ text.length`, last line only) redraws every remaining
overshoot cell, flushes, waits the contraction delay, blanks the rightmost
remaining overshoot cell, flushes again and waits the same contraction
delay once more. -/
def lineFrame (cfg : TypingEffectConfig) (text : List Char) (isLast : Bool)
    (totalLength lineStart : ℕ) (s : ℕ → ℚ) (st : LineState) (i : ℕ) :
    LineState × List Ev :=
  let contractionDelay := drawInt cfg.minContractionDelay cfg.maxContractionDelay (s st.pos)
  let mult := accelerationMultiplier cfg (s (st.pos + 1))
  let accelerationFactor :=
    calculateAccelerationFactor ((lineStart + i : ℕ) : ℚ) (totalLength : ℚ)
  let adjusted := adjustedBaseDelay cfg accelerationFactor mult
  if i < text.length then
    let st1 := typingFoldState cfg text isLast s st i
    let newBuf := st1.buf.set i (Cell.lit (text.getD i ' '))
    let distSq : ℚ := match st.prev with
      | some p => getKeyDistanceSq p (text.getD i ' ')
      | none => 1
    ({ buf := newBuf, prev := some (text.getD i ' '), pos := st1.pos + 1 },
     [Ev.flushE newBuf, Ev.waitTyping adjusted distSq (s st1.pos)])
  else if isLast then
    let st1 := contractionFoldState cfg text s st i
    let newBuf := st1.buf.set (text.length + (cfg.overshoot - (i - text.length)) - 1) Cell.blank
    ({ buf := newBuf, prev := st.prev, pos := st1.pos },
     [Ev.flushE st1.buf, Ev.waitContraction contractionDelay,
      Ev.flushE newBuf, Ev.waitContraction contractionDelay])
  else
    ({ st with pos := st.pos + 1 + accelDrawCount cfg }, [Ev.flushE st.buf])

/-- The starting state of one line's animation: a buffer of blanks of length
`text.length` plus `overshoot` on the last line, no previous character, and
the random stream at position `0`. -/
def initState (cfg : TypingEffectConfig) (text : List Char) (isLast : Bool) : LineState :=
  ⟨List.replicate (text.length + if isLast then cfg.overshoot else 0) Cell.blank, none, 0⟩

/-- The loop state just before iteration `f` of one line's animation. -/
def stateAfter (cfg : TypingEffectConfig) (text : List Char) (isLast : Bool)
    (totalLength lineStart : ℕ) (s : ℕ → ℚ) (f : ℕ) : LineState :=
  (List.range f).foldl
    (fun st i => (lineFrame cfg text isLast totalLength lineStart s st i).1)
    (initState cfg text isLast)

/-- The events emitted by iteration `f` of one line's animation. -/
def frameEvents (cfg : TypingEffectConfig) (text : List Char) (isLast : Bool)
    (totalLength lineStart : ℕ) (s : ℕ → ℚ) (f : ℕ) : List Ev :=
  (lineFrame cfg text isLast totalLength lineStart s
    (stateAfter cfg text isLast totalLength lineStart s f) f).2

/-- The whole event trace of `typingLineEffectWithBrailleLoading` for one
line: the events of every loop iteration in order, then the final
`\r${text.padEnd(terminalWidth)}\n` write. -/
def typingLineEffectWithBrailleLoading (cfg : TypingEffectConfig) (text : List Char)
    (isLast : Bool) (totalLength lineStart width : ℕ) (s : ℕ → ℚ) : List Ev :=
  ((List.range (text.length + if isLast then cfg.overshoot else 0)).flatMap
    (frameEvents cfg text isLast totalLength lineStart s))
  ++ [Ev.writeLine ('\r' :: (padEnd text width ++ ['\n']))]

/-- Terminal-level commands of the whole run: cursor hide/show, console
clear, and one line's animation trace. -/
inductive TermCmd where
  | hideCur : TermCmd
  | showCur : TermCmd
  | clearCons : TermCmd
  | lineRun : List Ev → TermCmd
deriving DecidableEq, Repr

/-- The per-line loop of `typingEffectWithBrailleLoading`.  The source has no
try/finally around it, so a runtime error thrown while animating line `i`
propagates out of the loop; `failAt` injects such an error, and the boolean
result records whether the run completed normally.  Each line reads its own
slice `streams i` of the random source. -/
def runLines (cfg : TypingEffectConfig) (totalLength width : ℕ)
    (streams : ℕ → ℕ → ℚ) (failAt : ℕ → Bool) :
    List (List Char) → ℕ → List TermCmd × Bool
  | [], _ => ([], true)
  | line :: rest, i =>
    if failAt i then ([], false)
    else
      let evs := typingLineEffectWithBrailleLoading cfg line rest.isEmpty totalLength
        (i * (width - cfg.overshoot)) width (streams i)
      let r := runLines cfg totalLength width streams failAt rest (i + 1)
      (TermCmd.lineRun evs :: r.1, r.2)

/-- The whole run `typingEffectWithBrailleLoading(text, config, clearConsole)`:
hide the cursor, optionally clear the console, split the text into lines,
animate them in order, and show the cursor again — the last step being
reached only when no line's animation threw. -/
def typingEffectWithBrailleLoading (cfg : TypingEffectConfig) (text : List Char)
    (width : ℕ) (clearConsole : Bool) (streams : ℕ → ℕ → ℚ) (failAt : ℕ → Bool) :
    List TermCmd × Bool :=
  let lines := lineSplit text width cfg.overshoot
  let r := runLines cfg text.length width streams failAt lines 0
  ((TermCmd.hideCur :: (if clearConsole then [TermCmd.clearCons] else [])) ++ r.1 ++
    (if r.2 then [TermCmd.showCur] else []), r.2)

/-- The demo configuration with a 2-glyph overshoot and contraction delays
drawn from `[0, 10]`, used to compare the code's contraction waits with the
spec's wording. -/
def reusedDelayCfg : TypingEffectConfig :=
  { demoConfig with
    overshoot := 2
    minContractionDelay := 0
    maxContractionDelay := 10 }

/-- The delays of one contraction step as the spec words them: the wait
after the re-randomization flush and the wait after the blanking flush are
each a freshly drawn `contractionDelay`, i.e. two independent draws
`r1, r2`.  (The source instead draws once per loop iteration and reuses the
value for both waits.) -/
def specContractionStepDelays (lo hi r1 r2 : ℚ) : ℚ × ℚ :=
  (drawInt lo hi r1, drawInt lo hi r2)

/-- A small configuration used to exhibit shimmer-cell persistence across
typing frames: ahead window drawn from `[1, 3]`, easing disabled. -/
def persistCfg : TypingEffectConfig :=
  { baseDelay := 10
    jitter := 3
    keyboardInfluence := 3 / 10
    keyDelay := 30
    brailleAhead := 3
    minBrailleAhead := 1
    overshoot := 0
    minContractionDelay := 0
    maxContractionDelay := 0
    minAccelerationMultiplier := 0
    maxAccelerationMultiplier := 0 }

/-- A concrete random stream: ahead draw `3` in frame 0 (position 1), cell-3
intensity `7/10` in frame 0 (position 4), everything else `0`. -/
def persistStreamA : ℕ → ℚ := fun q => if q = 1 then 2 / 3 else if q = 4 then 7 / 10 else 0

/-- The same stream with the frame-0 draw at position 4 changed to `9/10`;
it agrees with `persistStreamA` at every other position. -/
def persistStreamB : ℕ → ℚ := fun q => if q = 1 then 2 / 3 else if q = 4 then 9 / 10 else 0

/-- Decoding a valid scalar value gives back its code point. -/
theorem char_toNat_ofNat (n : ℕ) (h : n.isValidChar) : (Char.ofNat n).toNat = n := by
  simp only [Char.ofNat, h, dif_pos, Char.ofNatAux, Char.toNat, UInt32.toNat]
  simp [BitVec.toNat_ofNatLt]

/-- Lowercasing after uppercasing agrees with lowercasing directly. -/
theorem toLower_toUpper (c : Char) : c.toUpper.toLower = c.toLower := by
  unfold Char.toUpper Char.toLower
  by_cases h : c.toNat ≥ 97 ∧ c.toNat ≤ 122
  · have hv : (c.toNat - 32).isValidChar := by
      left
      have := h.2
      omega
    rw [if_pos h, char_toNat_ofNat _ hv, if_pos (by omega)]
    have h2 : c.toNat - 32 + 32 = c.toNat := by omega
    rw [h2, if_neg (by omega), Char.ofNat_toNat]
  · rw [if_neg h]

/-- Lowercasing is idempotent. -/
theorem toLower_toLower (c : Char) : c.toLower.toLower = c.toLower := by
  unfold Char.toLower
  by_cases h : c.toNat ≥ 65 ∧ c.toNat ≤ 90
  · have hv : (c.toNat + 32).isValidChar := by
      left
      have := h.2
      omega
    rw [if_pos h, char_toNat_ofNat _ hv, if_neg (by omega)]
  · rw [if_neg h, if_neg h]

/-- The last-index search never exceeds its search bound. -/
theorem lastIndexOfFrom_le (l : List Char) (c : Char) (fromIdx : ℕ) :
    lastIndexOfFrom l c fromIdx ≤ (fromIdx : ℤ) := by
  induction fromIdx with
  | zero =>
    unfold lastIndexOfFrom
    split <;> simp
  | succ k ih =>
    unfold lastIndexOfFrom
    split
    · simp
    · have : (k : ℤ) ≤ (k + 1 : ℕ) := by push_cast; omega
      exact le_trans ih this

/-- A nonnegative last-index result points at an occurrence of the needle. -/
theorem lastIndexOfFrom_mem (l : List Char) (c : Char) (fromIdx : ℕ)
    (h : 0 ≤ lastIndexOfFrom l c fromIdx) :
    l.get? (lastIndexOfFrom l c fromIdx).toNat = some c := by
  induction fromIdx with
  | zero =>
    unfold lastIndexOfFrom at h ⊢
    by_cases hc : l.get? 0 = some c
    · rw [if_pos hc]
      simpa using hc
    · rw [if_neg hc] at h
      omega
  | succ k ih =>
    unfold lastIndexOfFrom at h ⊢
    by_cases hc : l.get? (k + 1) = some c
    · rw [if_pos hc]
      simpa using hc
    · rw [if_neg hc] at h ⊢
      exact ih h

/-- The last-index search dominates every occurrence within the bound. -/
theorem lastIndexOfFrom_greatest (l : List Char) (c : Char) (fromIdx j : ℕ)
    (hj : j ≤ fromIdx) (hc : l.get? j = some c) :
    (j : ℤ) ≤ lastIndexOfFrom l c fromIdx := by
  induction fromIdx with
  | zero =>
    have hj0 : j = 0 := Nat.le_zero.mp hj
    subst hj0
    unfold lastIndexOfFrom
    rw [if_pos hc]
    simp
  | succ k ih =>
    unfold lastIndexOfFrom
    split
    · exact_mod_cast hj
    · rename_i hne
      have hjk : j ≤ k := by
        rcases Nat.lt_or_ge j (k + 1) with h | h
        · omega
        · exact absurd hc (by rw [Nat.le_antisymm hj h]; exact hne)
      exact ih hjk

/-- The chosen cut lies between `start` and `min (start + W) text.length`. -/
theorem cutAt_bounds (text : List Char) (W start : ℕ) (hs : start < text.length) :
    start ≤ cutAt text W start ∧ cutAt text W start ≤ min (start + W) text.length := by
  unfold cutAt
  split
  · rename_i hcond
    split
    · rename_i hgt
      have h0 : (0 : ℤ) ≤ lastIndexOfFrom text ' ' (min (start + W) text.length) := by
        omega
      have hub := lastIndexOfFrom_le text ' ' (min (start + W) text.length)
      omega
    · exact ⟨Nat.le_min.mpr ⟨Nat.le_add_right _ _, le_of_lt hs⟩, le_refl _⟩
  · exact ⟨Nat.le_min.mpr ⟨Nat.le_add_right _ _, le_of_lt hs⟩, le_refl _⟩

/-- Every line the splitting loop produces fits in `W` characters. -/
theorem splitLoop_width (text : List Char) (W fuel : ℕ) :
    ∀ start, ∀ l ∈ splitLoop text W fuel start, l.length ≤ W := by
  induction fuel with
  | zero =>
    intro start l hl
    simp [splitLoop] at hl
  | succ fuel ih =>
    intro start l hl
    unfold splitLoop at hl
    split at hl
    · rename_i hs
      rcases List.mem_cons.mp hl with h | h
      · subst h
        have hb := (cutAt_bounds text W start hs).2
        have : cutAt text W start ≤ start + W := le_trans hb (Nat.min_le_left _ _)
        simp only [List.length_take, List.length_drop]
        omega
      · exact ih _ l h
    · simp at hl

/-- C2: with `overshoot ≤ width`, no line returned by the splitter is longer
than `width - overshoot` characters; and whenever the tentative cut
`min (start + W, text.length)` lands mid-word (strictly inside the text, on
a non-space) while a space exists strictly after `start` and within the
segment, the cut is moved back to the last such space — it lands on a space,
strictly after `start`, with no later space in the segment. -/
theorem lineSplit_spec (text : List Char) (width overshoot : ℕ)
    (h : overshoot ≤ width) :
    (∀ l ∈ lineSplit text width overshoot,
        (l.length : ℤ) ≤ (width : ℤ) - (overshoot : ℤ))
      ∧ (∀ start, start < text.length →
          min (start + (width - overshoot)) text.length < text.length →
          text.get? (min (start + (width - overshoot)) text.length) ≠ some ' ' →
          (∃ j, start < j ∧ j ≤ min (start + (width - overshoot)) text.length ∧
              text.get? j = some ' ') →
          start < cutAt text (width - overshoot) start
            ∧ text.get? (cutAt text (width - overshoot) start) = some ' '
            ∧ ∀ j, cutAt text (width - overshoot) start < j →
                j ≤ min (start + (width - overshoot)) text.length →
                text.get? j ≠ some ' ') := by
  constructor
  · intro l hl
    have := splitLoop_width text (width - overshoot) (text.length + 1) 0 l hl
    omega
  · intro start hs he0 hsp hex
    obtain ⟨j, hj1, hj2, hj3⟩ := hex
    set e0 := min (start + (width - overshoot)) text.length with he0def
    have hge := lastIndexOfFrom_greatest text ' ' e0 j hj2 hj3
    have hgt : lastIndexOfFrom text ' ' e0 > (start : ℤ) := by omega
    have h0 : (0 : ℤ) ≤ lastIndexOfFrom text ' ' e0 := by omega
    have hcut : cutAt text (width - overshoot) start
        = (lastIndexOfFrom text ' ' e0).toNat := by
      unfold cutAt
      rw [← he0def, if_pos ⟨he0, hsp⟩, if_pos hgt]
    refine ⟨?_, ?_, ?_⟩
    · omega
    · rw [hcut]
      exact lastIndexOfFrom_mem text ' ' e0 h0
    · intro j2 hj2a hj2b hj2c
      have := lastIndexOfFrom_greatest text ' ' e0 j2 hj2b hj2c
      omega

/-- Witness for C2 on `"ab cd"` with `width = 4`, `overshoot = 0`: every
line fits in 4 columns, and from `start = 0` the cut is moved back to the
space at index 2. -/
theorem lineSplit_spec_witness :
    (0 : ℕ) ≤ 4
      ∧ (∀ l ∈ lineSplit ("ab cd".toList) 4 0, (l.length : ℤ) ≤ (4 : ℤ) - 0)
      ∧ (0 < cutAt ("ab cd".toList) 4 0
          ∧ ("ab cd".toList).get? (cutAt ("ab cd".toList) 4 0) = some ' ') :=
  ⟨Nat.zero_le 4, (lineSplit_spec ("ab cd".toList) 4 0 (Nat.zero_le 4)).1,
    ⟨((lineSplit_spec ("ab cd".toList) 4 0 (Nat.zero_le 4)).2 0 (by decide)
        (by decide) (by decide) ⟨2, by decide, by decide, by decide⟩).1,
      ((lineSplit_spec ("ab cd".toList) 4 0 (Nat.zero_le 4)).2 0 (by decide)
        (by decide) (by decide) ⟨2, by decide, by decide, by decide⟩).2.1⟩⟩

/-- C3 (code bug): the splitter advances `start = end + 1` even after a hard
cut inside a long unbroken token, silently dropping the non-space character
at the cut position: `"abcdef"` with capacity 3 yields `["abc", "ef"]` —
the `'d'` at index 3 is gone, so joining with single spaces cannot
reconstruct the input. -/
theorem lineSplit_drops_nonspace_char :
    lineSplit ("abcdef".toList) 3 0 = [("abc".toList), ("ef".toList)]
      ∧ ("abcdef".toList).get? 3 = some 'd'
      ∧ 'd' ≠ ' '
      ∧ List.intercalate [' '] (lineSplit ("abcdef".toList) 3 0)
          = "abc ef".toList
      ∧ "abc ef".toList ≠ "abcdef".toList := by
  refine ⟨by decide, by decide, by decide, by decide, by decide⟩

/-- C1: for every `totalLength > 0` and every position in `[0, totalLength)`,
`calculateAccelerationFactor` returns exactly
`1 - (2 * (position / totalLength) - 1) ^ 2`; this value lies in `[0, 1]`,
equals `0` at `position = 0`, and equals exactly `1` at
`position = totalLength / 2`. -/
theorem calculateAccelerationFactor_spec (position totalLength : ℚ)
    (hL : 0 < totalLength) (h0 : 0 ≤ position) (hlt : position < totalLength) :
    calculateAccelerationFactor position totalLength
        = 1 - (2 * (position / totalLength) - 1) ^ 2
      ∧ 0 ≤ calculateAccelerationFactor position totalLength
      ∧ calculateAccelerationFactor position totalLength ≤ 1
      ∧ (position = 0 → calculateAccelerationFactor position totalLength = 0)
      ∧ (position = totalLength / 2 →
          calculateAccelerationFactor position totalLength = 1) := by
  have hp0 : 0 ≤ position / totalLength := div_nonneg h0 (le_of_lt hL)
  have hp1 : position / totalLength < 1 := (div_lt_one hL).mpr hlt
  refine ⟨rfl, ?_, ?_, ?_, ?_⟩
  · unfold calculateAccelerationFactor
    nlinarith [mul_nonneg hp0 (by linarith : (0 : ℚ) ≤ 1 - position / totalLength)]
  · unfold calculateAccelerationFactor
    nlinarith [sq_nonneg (2 * (position / totalLength) - 1)]
  · intro h
    subst h
    unfold calculateAccelerationFactor
    norm_num
  · intro h
    subst h
    unfold calculateAccelerationFactor
    have hhalf : totalLength / 2 / totalLength = 1 / 2 := by
      field_simp
      ring
    rw [hhalf]
    norm_num

/-- Witness for C1 at `position = 2`, `totalLength = 4`: the midpoint value
is exactly `1`. -/
theorem calculateAccelerationFactor_spec_witness :
    (0 : ℚ) < 4 ∧ (0 : ℚ) ≤ 2 ∧ (2 : ℚ) < 4 ∧
      calculateAccelerationFactor 2 4 = 1 :=
  ⟨by norm_num, by norm_num, by norm_num,
    (calculateAccelerationFactor_spec 2 4 (by norm_num) (by norm_num)
      (by norm_num)).2.2.2.2 (by norm_num)⟩

/-- C8: for every pre-jitter sum `s ≥ 0`, every `jitter ≥ 0` and every draw
`r ∈ [0, 1)`, the jittered delay equals
`s + r * (s * jitter) - (s * jitter) / 2` and lies in
`[s - s * jitter / 2, s + s * jitter / 2]`; the variance `s * jitter` is
computed from the pre-jitter sum. -/
theorem getRandomDelay_spec (s jitter r : ℚ) (hs : 0 ≤ s) (hj : 0 ≤ jitter)
    (hr0 : 0 ≤ r) (hr1 : r < 1) :
    getRandomDelay s jitter r = s + r * (s * jitter) - (s * jitter) / 2
      ∧ s - (s * jitter) / 2 ≤ getRandomDelay s jitter r
      ∧ getRandomDelay s jitter r ≤ s + (s * jitter) / 2 := by
  have hv : 0 ≤ s * jitter := mul_nonneg hs hj
  refine ⟨rfl, ?_, ?_⟩
  · unfold getRandomDelay
    nlinarith [mul_nonneg hr0 hv]
  · unfold getRandomDelay
    nlinarith [mul_nonneg (by linarith : (0 : ℚ) ≤ 1 - r) hv]

/-- Witness for C8 at `s = 10`, `jitter = 1/2`, `r = 1/4`. -/
theorem getRandomDelay_spec_witness :
    (0 : ℚ) ≤ 10 ∧ (0 : ℚ) ≤ 1 / 2 ∧ (0 : ℚ) ≤ 1 / 4 ∧ (1 / 4 : ℚ) < 1 ∧
      (getRandomDelay 10 (1 / 2) (1 / 4)
          = 10 + (1 / 4) * (10 * (1 / 2)) - (10 * (1 / 2)) / 2
        ∧ 10 - (10 * (1 / 2) : ℚ) / 2 ≤ getRandomDelay 10 (1 / 2) (1 / 4)
        ∧ getRandomDelay 10 (1 / 2) (1 / 4) ≤ 10 + (10 * (1 / 2) : ℚ) / 2) :=
  ⟨by norm_num, by norm_num, by norm_num, by norm_num,
    getRandomDelay_spec 10 (1 / 2) (1 / 4) (by norm_num) (by norm_num)
      (by norm_num) (by norm_num)⟩

/-- C5 counterexample: at the demo configuration
(`minAccelerationMultiplier = 0.1`, `maxAccelerationMultiplier = 6`) and the
valid draw `r = 0.9`, the acceleration multiplier is `6.1`, strictly above
`maxAccelerationMultiplier` — it does fall outside the configured interval. -/
theorem accelerationMultiplier_outside_bounds :
    (0 ≤ (9 / 10 : ℚ) ∧ (9 / 10 : ℚ) < 1)
      ∧ accelerationMultiplier demoConfig (9 / 10) = 61 / 10
      ∧ demoConfig.maxAccelerationMultiplier
          < accelerationMultiplier demoConfig (9 / 10) := by
  have h : accelerationMultiplier demoConfig (9 / 10) = 61 / 10 := by
    unfold accelerationMultiplier demoConfig drawInt
    norm_num
  refine ⟨⟨by norm_num, by norm_num⟩, h, ?_⟩
  rw [h]
  unfold demoConfig
  norm_num

/-- C5 (amended): the multiplier is forced to `0` whenever either bound is
`0` (the source gates the draw on both bounds being nonzero); when both
bounds are nonzero integers with `min ≤ max`, the integer-quantized draw
never falls outside `[min, max]`; and with both bounds `0` the pre-jitter
delay reduces exactly to `baseDelay + keyboardTravelDelay`. -/
theorem accelerationMultiplier_spec (cfg : TypingEffectConfig) (r fac dist : ℚ)
    (hr0 : 0 ≤ r) (hr1 : r < 1) :
    ((cfg.minAccelerationMultiplier = 0 ∨ cfg.maxAccelerationMultiplier = 0) →
        accelerationMultiplier cfg r = 0)
      ∧ (∀ m M : ℤ, cfg.minAccelerationMultiplier = (m : ℚ) →
          cfg.maxAccelerationMultiplier = (M : ℚ) → m ≠ 0 → M ≠ 0 → m ≤ M →
          cfg.minAccelerationMultiplier ≤ accelerationMultiplier cfg r
            ∧ accelerationMultiplier cfg r ≤ cfg.maxAccelerationMultiplier)
      ∧ (cfg.minAccelerationMultiplier = 0 → cfg.maxAccelerationMultiplier = 0 →
          preJitterDelay cfg fac (accelerationMultiplier cfg r) dist
            = cfg.baseDelay +
                normalizeKeyDistanceDelay dist cfg.keyDelay * cfg.keyboardInfluence) := by
  refine ⟨?_, ?_, ?_⟩
  · intro h
    unfold accelerationMultiplier
    rw [if_neg]
    intro hc
    rcases h with h | h
    · exact hc.1 h
    · exact hc.2 h
  · intro m M hm hM hm0 hM0 hmM
    have hne : cfg.minAccelerationMultiplier ≠ 0 ∧ cfg.maxAccelerationMultiplier ≠ 0 := by
      constructor
      · rw [hm]
        exact_mod_cast hm0
      · rw [hM]
        exact_mod_cast hM0
    have hV : (0 : ℚ) < (M : ℚ) - (m : ℚ) + 1 := by
      have : (m : ℚ) ≤ (M : ℚ) := by exact_mod_cast hmM
      linarith
    have hfl0 : (0 : ℤ) ≤ ⌊r * ((M : ℚ) - (m : ℚ) + 1)⌋ :=
      Int.floor_nonneg.mpr (mul_nonneg hr0 (le_of_lt hV))
    have hflub : ⌊r * ((M : ℚ) - (m : ℚ) + 1)⌋ ≤ M - m := by
      have hlt : r * ((M : ℚ) - (m : ℚ) + 1) < ((M - m + 1 : ℤ) : ℚ) := by
        push_cast
        nlinarith
      have := Int.floor_lt.mpr hlt
      omega
    unfold accelerationMultiplier drawInt
    rw [if_pos hne, hm, hM]
    constructor
    · have : (0 : ℚ) ≤ (⌊r * ((M : ℚ) - (m : ℚ) + 1)⌋ : ℚ) := by exact_mod_cast hfl0
      linarith
    · have : ((⌊r * ((M : ℚ) - (m : ℚ) + 1)⌋ : ℤ) : ℚ) ≤ ((M - m : ℤ) : ℚ) := by
        exact_mod_cast hflub
      push_cast at this
      linarith
  · intro h1 h2
    have hz : accelerationMultiplier cfg r = 0 := by
      unfold accelerationMultiplier
      rw [if_neg]
      intro hc
      exact hc.1 h1
    rw [hz]
    unfold preJitterDelay adjustedBaseDelay
    ring

/-- Witness for C5 (amended) at integer bounds `[1, 3]`, draw `r = 1/2`, and
at both-zero bounds. -/
theorem accelerationMultiplier_spec_witness :
    (0 ≤ (1 / 2 : ℚ) ∧ (1 / 2 : ℚ) < 1)
      ∧ ({ demoConfig with
            minAccelerationMultiplier := 1,
            maxAccelerationMultiplier := 3 : TypingEffectConfig}.minAccelerationMultiplier
            ≤ accelerationMultiplier
                { demoConfig with
                  minAccelerationMultiplier := 1, maxAccelerationMultiplier := 3 } (1 / 2)
          ∧ accelerationMultiplier
                { demoConfig with
                  minAccelerationMultiplier := 1, maxAccelerationMultiplier := 3 } (1 / 2)
            ≤ ({ demoConfig with
                  minAccelerationMultiplier := 1,
                  maxAccelerationMultiplier := 3 : TypingEffectConfig}.maxAccelerationMultiplier))
      ∧ preJitterDelay
            { demoConfig with
              minAccelerationMultiplier := 0, maxAccelerationMultiplier := 0 } (1 / 3)
            (accelerationMultiplier
              { demoConfig with
                minAccelerationMultiplier := 0, maxAccelerationMultiplier := 0 } (1 / 2)) 5
          = ({ demoConfig with
                minAccelerationMultiplier := 0,
                maxAccelerationMultiplier := 0 : TypingEffectConfig}.baseDelay) +
              normalizeKeyDistanceDelay 5
                  ({ demoConfig with
                      minAccelerationMultiplier := 0,
                      maxAccelerationMultiplier := 0 : TypingEffectConfig}.keyDelay) *
                ({ demoConfig with
                    minAccelerationMultiplier := 0,
                    maxAccelerationMultiplier := 0 : TypingEffectConfig}.keyboardInfluence) :=
  ⟨⟨by norm_num, by norm_num⟩,
    (accelerationMultiplier_spec _ (1 / 2) (1 / 3) 5 (by norm_num) (by norm_num)).2.1
      1 3 (by norm_num [demoConfig]) (by norm_num [demoConfig])
      (by norm_num) (by norm_num) (by norm_num),
    (accelerationMultiplier_spec _ (1 / 2) (1 / 3) 5 (by norm_num) (by norm_num)).2.2
      (by norm_num [demoConfig]) (by norm_num [demoConfig])⟩

/-- Every command the per-line loop emits is a line animation — cursor
control never happens inside it. -/
theorem runLines_all_lineRun (cfg : TypingEffectConfig) (totalLength width : ℕ)
    (streams : ℕ → ℕ → ℚ) (failAt : ℕ → Bool) :
    ∀ lines i0, ∀ c ∈ (runLines cfg totalLength width streams failAt lines i0).1,
      ∃ evs, c = TermCmd.lineRun evs := by
  intro lines
  induction lines with
  | nil =>
    intro i0 c hc
    simp [runLines] at hc
  | cons line rest ih =>
    intro i0 c hc
    unfold runLines at hc
    split at hc
    · simp at hc
    · rcases List.mem_cons.mp hc with h | h
      · exact ⟨_, h⟩
      · exact ih (i0 + 1) c h

/-- A failure at any line index makes the per-line loop end abnormally. -/
theorem runLines_fail (cfg : TypingEffectConfig) (totalLength width : ℕ)
    (streams : ℕ → ℕ → ℚ) (failAt : ℕ → Bool) :
    ∀ lines i0, (∃ k, k < lines.length ∧ failAt (i0 + k) = true) →
      (runLines cfg totalLength width streams failAt lines i0).2 = false := by
  intro lines
  induction lines with
  | nil =>
    intro i0 h
    obtain ⟨k, hk, _⟩ := h
    simp at hk
  | cons line rest ih =>
    intro i0 h
    unfold runLines
    split
    · rfl
    · rename_i hf
      obtain ⟨k, hk, hkt⟩ := h
      match k with
      | 0 => exact absurd hkt (by simpa using hf)
      | k + 1 =>
        simp only
        apply ih (i0 + 1)
        exact ⟨k, by simpa using hk, by rw [show i0 + 1 + k = i0 + (k + 1) by omega]; exact hkt⟩

/-- With no failure anywhere, the per-line loop ends normally. -/
theorem runLines_ok (cfg : TypingEffectConfig) (totalLength width : ℕ)
    (streams : ℕ → ℕ → ℚ) (failAt : ℕ → Bool) :
    ∀ lines i0, (∀ k, k < lines.length → failAt (i0 + k) = false) →
      (runLines cfg totalLength width streams failAt lines i0).2 = true := by
  intro lines
  induction lines with
  | nil =>
    intro i0 _
    simp [runLines]
  | cons line rest ih =>
    intro i0 h
    unfold runLines
    have h0 : failAt i0 = false := by simpa using h 0 (by simp)
    rw [if_neg (by simp [h0])]
    simp only
    apply ih (i0 + 1)
    intro k hk
    rw [show i0 + 1 + k = i0 + (k + 1) by omega]
    exact h (k + 1) (by simpa using hk)

/-- C9 counterexample: with an error injected while animating the very first
line (text `"ab"`, demo configuration, width 20), the run terminates
abnormally and `showCursor` is never executed — there is no try/finally
around the animation loop. -/
theorem showCursor_skipped_on_error :
    TermCmd.showCur ∉ (typingEffectWithBrailleLoading demoConfig ("ab".toList) 20 false
        (fun _ _ => 0) (fun _ => true)).1
      ∧ (typingEffectWithBrailleLoading demoConfig ("ab".toList) 20 false
          (fun _ _ => 0) (fun _ => true)).2 = false := by
  constructor
  · decide
  · decide

/-- C9 (amended): the cursor is hidden exactly once, at the very start of
the whole run, and shown exactly once, at the very end of the whole run and
never inside the per-line animation — but only when the run completes
normally; when an error interrupts any line's animation, the show-cursor
action is skipped. -/
theorem cursor_lifecycle_spec (cfg : TypingEffectConfig) (text : List Char)
    (width : ℕ) (clearConsole : Bool) (streams : ℕ → ℕ → ℚ) (failAt : ℕ → Bool) :
    ((typingEffectWithBrailleLoading cfg text width clearConsole streams failAt).1.head?
        = some TermCmd.hideCur)
      ∧ ((typingEffectWithBrailleLoading cfg text width clearConsole streams failAt).1.count
          TermCmd.hideCur = 1)
      ∧ ((∀ k, k < (lineSplit text width cfg.overshoot).length → failAt k = false) →
          (typingEffectWithBrailleLoading cfg text width clearConsole streams failAt).1.count
              TermCmd.showCur = 1
            ∧ (typingEffectWithBrailleLoading cfg text width clearConsole streams
                failAt).1.getLast? = some TermCmd.showCur)
      ∧ ((∃ k, k < (lineSplit text width cfg.overshoot).length ∧ failAt k = true) →
          TermCmd.showCur ∉
            (typingEffectWithBrailleLoading cfg text width clearConsole streams failAt).1) := by
  have hlr := runLines_all_lineRun cfg text.length width streams failAt
    (lineSplit text width cfg.overshoot) 0
  have hsc0 : (runLines cfg text.length width streams failAt
      (lineSplit text width cfg.overshoot) 0).1.count TermCmd.showCur = 0 := by
    rw [List.count_eq_zero]
    intro hmem
    obtain ⟨evs, h⟩ := hlr _ hmem
    exact TermCmd.noConfusion h
  have hhc0 : (runLines cfg text.length width streams failAt
      (lineSplit text width cfg.overshoot) 0).1.count TermCmd.hideCur = 0 := by
    rw [List.count_eq_zero]
    intro hmem
    obtain ⟨evs, h⟩ := hlr _ hmem
    exact TermCmd.noConfusion h
  refine ⟨?_, ?_, ?_, ?_⟩
  · simp only [typingEffectWithBrailleLoading]
    cases clearConsole <;> simp
  · simp only [typingEffectWithBrailleLoading]
    simp only [List.cons_append, List.count_cons, List.count_append]
    cases clearConsole <;>
      cases hok : (runLines cfg text.length width streams failAt
        (lineSplit text width cfg.overshoot) 0).2 <;>
      simp [hhc0]
  · intro hnf
    have hok : (runLines cfg text.length width streams failAt
        (lineSplit text width cfg.overshoot) 0).2 = true := by
      apply runLines_ok
      intro k hk
      simpa using hnf k hk
    constructor
    · simp only [typingEffectWithBrailleLoading]
      simp only [List.cons_append, List.count_cons, List.count_append]
      rw [hok]
      cases clearConsole <;> simp [hsc0]
    · simp only [typingEffectWithBrailleLoading]
      rw [hok]
      rw [show (if (true : Bool) = true then [TermCmd.showCur] else []) = [TermCmd.showCur]
        from rfl]
      rw [List.getLast?_concat]
  · intro hf
    have hok : (runLines cfg text.length width streams failAt
        (lineSplit text width cfg.overshoot) 0).2 = false := by
      apply runLines_fail
      obtain ⟨k, hk, hkt⟩ := hf
      exact ⟨k, hk, by simpa using hkt⟩
    have hnotin : TermCmd.showCur ∉ (runLines cfg text.length width streams failAt
        (lineSplit text width cfg.overshoot) 0).1 := List.count_eq_zero.mp hsc0
    simp only [typingEffectWithBrailleLoading]
    rw [hok]
    intro hmem
    simp only [Bool.false_eq_true, if_false, List.append_nil, List.cons_append,
      List.mem_cons, List.mem_append] at hmem
    rcases hmem with h | h | h
    · exact TermCmd.noConfusion h
    · cases clearConsole <;> simp_all
    · exact hnotin h

/-- Witness for C9 (amended): a concrete normal run of `"ab"` at width 20
ends with show-cursor, and a concrete failing run never shows it. -/
theorem cursor_lifecycle_spec_witness :
    ((typingEffectWithBrailleLoading demoConfig ("ab".toList) 20 false
          (fun _ _ => 0) (fun _ => false)).1.count TermCmd.showCur = 1
        ∧ (typingEffectWithBrailleLoading demoConfig ("ab".toList) 20 false
            (fun _ _ => 0) (fun _ => false)).1.getLast? = some TermCmd.showCur)
      ∧ TermCmd.showCur ∉
          (typingEffectWithBrailleLoading demoConfig ("ab".toList) 20 false
            (fun _ _ => 0) (fun _ => true)).1 :=
  ⟨(cursor_lifecycle_spec demoConfig ("ab".toList) 20 false (fun _ _ => 0)
      (fun _ => false)).2.2.1 (fun _ _ => rfl),
    (cursor_lifecycle_spec demoConfig ("ab".toList) 20 false (fun _ _ => 0)
      (fun _ => true)).2.2.2 ⟨0, by decide, rfl⟩⟩

/-- Membership in a step-one range is an interval condition. -/
theorem mem_range'_iff {s n m : ℕ} : m ∈ List.range' s n ↔ s ≤ m ∧ m < s + n := by
  rw [List.mem_range']
  constructor
  · rintro ⟨i, hi, rfl⟩
    omega
  · intro h
    exact ⟨m - s, by omega, by omega⟩

/-- Reading back an in-bounds write. -/
theorem getD_set_self_of_lt (l : List Cell) (i : ℕ) (a d : Cell) (h : i < l.length) :
    (l.set i a).getD i d = a := by
  simp [List.getD_eq_getElem?_getD, List.getElem?_set_self h]

/-- A write at one index leaves reads at any other index unchanged. -/
theorem getD_set_ne (l : List Cell) (i k : ℕ) (a d : Cell) (h : i ≠ k) :
    (l.set i a).getD k d = l.getD k d := by
  simp [List.getD_eq_getElem?_getD, List.getElem?_set_ne h]

/-- A shimmer write preserves the buffer length. -/
theorem shimmerStep_length (text : List Char) (s : ℕ → ℚ) (st : LineState) (j : ℕ) :
    (shimmerStep text s st j).buf.length = st.buf.length := by
  unfold shimmerStep
  split <;> simp

/-- A shimmer write never moves the stream position backwards. -/
theorem shimmerStep_pos_le (text : List Char) (s : ℕ → ℚ) (st : LineState) (j : ℕ) :
    st.pos ≤ (shimmerStep text s st j).pos := by
  unfold shimmerStep
  split <;> simp

/-- The shimmer loop preserves the buffer length. -/
theorem foldl_shimmerStep_length (text : List Char) (s : ℕ → ℚ) :
    ∀ (js : List ℕ) (st : LineState),
      (js.foldl (shimmerStep text s) st).buf.length = st.buf.length := by
  intro js
  induction js with
  | nil => intro st; rfl
  | cons j rest ih =>
    intro st
    rw [List.foldl_cons, ih, shimmerStep_length]

/-- The shimmer loop never moves the stream position backwards. -/
theorem foldl_shimmerStep_pos (text : List Char) (s : ℕ → ℚ) :
    ∀ (js : List ℕ) (st : LineState),
      st.pos ≤ (js.foldl (shimmerStep text s) st).pos := by
  intro js
  induction js with
  | nil => intro st; exact le_refl _
  | cons j rest ih =>
    intro st
    exact le_trans (shimmerStep_pos_le text s st j) (ih _)

/-- Cells outside the visited index list are untouched by the shimmer loop. -/
theorem foldl_shimmerStep_notMem (text : List Char) (s : ℕ → ℚ) :
    ∀ (js : List ℕ) (st : LineState) (k : ℕ), k ∉ js →
      (js.foldl (shimmerStep text s) st).buf.getD k Cell.blank
        = st.buf.getD k Cell.blank := by
  intro js
  induction js with
  | nil => intro st k _; rfl
  | cons j rest ih =>
    intro st k hk
    have hkj : j ≠ k := fun h => hk (h ▸ List.mem_cons_self j rest)
    have hkr : k ∉ rest := fun h => hk (List.mem_cons_of_mem j h)
    rw [List.foldl_cons, ih _ k hkr]
    unfold shimmerStep
    split <;> exact getD_set_ne _ _ _ _ _ hkj

/-- Every cell the shimmer loop visits ends as a decorative glyph whose
content is read from the stream at a position inside the loop's own span:
similar-Braille glyph with one fresh intensity inside the text, random glyph
with fresh intensity beyond it. -/
theorem foldl_shimmerStep_mem (text : List Char) (s : ℕ → ℚ) :
    ∀ (js : List ℕ) (st : LineState) (k : ℕ), k ∈ js → k < st.buf.length →
      ∃ p, st.pos ≤ p ∧
        (if k < text.length then
          p + 1 ≤ (js.foldl (shimmerStep text s) st).pos ∧
            (js.foldl (shimmerStep text s) st).buf.getD k Cell.blank
              = Cell.shimmer (brailleOfChar (text.getD k ' ')) (s p)
        else
          p + 2 ≤ (js.foldl (shimmerStep text s) st).pos ∧
            (js.foldl (shimmerStep text s) st).buf.getD k Cell.blank
              = Cell.shimmer (getRandomBrailleCharacter (s p)) (s (p + 1))) := by
  intro js
  induction js with
  | nil => intro st k hk; exact absurd hk (List.not_mem_nil k)
  | cons j rest ih =>
    intro st k hk hlen
    by_cases hkr : k ∈ rest
    · obtain ⟨p, hp, hrest⟩ := ih (shimmerStep text s st j) k hkr
        (by rw [shimmerStep_length]; exact hlen)
      exact ⟨p, le_trans (shimmerStep_pos_le text s st j) hp, hrest⟩
    · have hkj : k = j := by
        rcases List.mem_cons.mp hk with h | h
        · exact h
        · exact absurd h hkr
      subst hkj
      rw [List.foldl_cons]
      have hnm := foldl_shimmerStep_notMem text s rest (shimmerStep text s st k) k hkr
      have hpos := foldl_shimmerStep_pos text s rest (shimmerStep text s st k)
      refine ⟨st.pos, le_refl _, ?_⟩
      by_cases hkt : k < text.length
      · rw [if_pos hkt]
        constructor
        · have : (shimmerStep text s st k).pos = st.pos + 1 := by
            unfold shimmerStep
            rw [if_pos hkt]
          omega
        · rw [hnm]
          unfold shimmerStep
          rw [if_pos hkt]
          exact getD_set_self_of_lt _ _ _ _ hlen
      · rw [if_neg hkt]
        constructor
        · have : (shimmerStep text s st k).pos = st.pos + 2 := by
            unfold shimmerStep
            rw [if_neg hkt]
          omega
        · rw [hnm]
          unfold shimmerStep
          rw [if_neg hkt]
          exact getD_set_self_of_lt _ _ _ _ hlen

/-- Unfolding a typing frame (`i < text.length`). -/
theorem lineFrame_typing_eq (cfg : TypingEffectConfig) (text : List Char) (isLast : Bool)
    (totalLength lineStart : ℕ) (s : ℕ → ℚ) (st : LineState) (i : ℕ)
    (hi : i < text.length) :
    lineFrame cfg text isLast totalLength lineStart s st i
      = ({ buf := (typingFoldState cfg text isLast s st i).buf.set i
              (Cell.lit (text.getD i ' ')),
           prev := some (text.getD i ' '),
           pos := (typingFoldState cfg text isLast s st i).pos + 1 },
         [Ev.flushE ((typingFoldState cfg text isLast s st i).buf.set i
             (Cell.lit (text.getD i ' '))),
          Ev.waitTyping
            (adjustedBaseDelay cfg
              (calculateAccelerationFactor ((lineStart + i : ℕ) : ℚ) ((totalLength : ℕ) : ℚ))
              (accelerationMultiplier cfg (s (st.pos + 1))))
            (match st.prev with
              | some p => getKeyDistanceSq p (text.getD i ' ')
              | none => 1)
            (s (typingFoldState cfg text isLast s st i).pos)]) := by
  simp only [lineFrame, if_pos hi]

/-- Unfolding an overshoot frame (`i ≥ text.length`, last line). -/
theorem lineFrame_overshoot_eq (cfg : TypingEffectConfig) (text : List Char)
    (totalLength lineStart : ℕ) (s : ℕ → ℚ) (st : LineState) (i : ℕ)
    (hi : ¬ i < text.length) :
    lineFrame cfg text true totalLength lineStart s st i
      = ({ buf := (contractionFoldState cfg text s st i).buf.set
              (text.length + (cfg.overshoot - (i - text.length)) - 1) Cell.blank,
           prev := st.prev,
           pos := (contractionFoldState cfg text s st i).pos },
         [Ev.flushE (contractionFoldState cfg text s st i).buf,
          Ev.waitContraction
            (drawInt cfg.minContractionDelay cfg.maxContractionDelay (s st.pos)),
          Ev.flushE ((contractionFoldState cfg text s st i).buf.set
            (text.length + (cfg.overshoot - (i - text.length)) - 1) Cell.blank),
          Ev.waitContraction
            (drawInt cfg.minContractionDelay cfg.maxContractionDelay (s st.pos))]) := by
  simp only [lineFrame, if_neg hi, if_true]

/-- One more frame is one more application of `lineFrame`. -/
theorem stateAfter_succ (cfg : TypingEffectConfig) (text : List Char) (isLast : Bool)
    (totalLength lineStart : ℕ) (s : ℕ → ℚ) (f : ℕ) :
    stateAfter cfg text isLast totalLength lineStart s (f + 1)
      = (lineFrame cfg text isLast totalLength lineStart s
          (stateAfter cfg text isLast totalLength lineStart s f) f).1 := by
  unfold stateAfter
  rw [List.range_succ, List.foldl_append]
  rfl

/-- A frame preserves the buffer length. -/
theorem lineFrame_buf_length (cfg : TypingEffectConfig) (text : List Char) (isLast : Bool)
    (totalLength lineStart : ℕ) (s : ℕ → ℚ) (st : LineState) (i : ℕ) :
    (lineFrame cfg text isLast totalLength lineStart s st i).1.buf.length
      = st.buf.length := by
  simp only [lineFrame]
  split
  · simp [typingFoldState, foldl_shimmerStep_length]
  · split
    · simp [contractionFoldState, foldl_shimmerStep_length]
    · rfl

/-- The buffer length is the line length plus the overshoot of a last line,
at every frame. -/
theorem stateAfter_buf_length (cfg : TypingEffectConfig) (text : List Char) (isLast : Bool)
    (totalLength lineStart : ℕ) (s : ℕ → ℚ) :
    ∀ f, (stateAfter cfg text isLast totalLength lineStart s f).buf.length
      = text.length + (if isLast then cfg.overshoot else 0) := by
  intro f
  induction f with
  | zero => simp [stateAfter, initState]
  | succ f ih =>
    rw [stateAfter_succ, lineFrame_buf_length]
    exact ih

/-- Unfolding a frame past the end of a non-final line (never reached by the
loop, which stops at `text.length` there). -/
theorem lineFrame_skip_eq (cfg : TypingEffectConfig) (text : List Char)
    (totalLength lineStart : ℕ) (s : ℕ → ℚ) (st : LineState) (i : ℕ)
    (hi : ¬ i < text.length) :
    lineFrame cfg text false totalLength lineStart s st i
      = ({ st with pos := st.pos + 1 + accelDrawCount cfg }, [Ev.flushE st.buf]) := by
  simp only [lineFrame, if_neg hi, Bool.false_eq_true, if_false]

/-- Once the typing loop commits cell `k` to the literal character `text[k]`,
no later frame of the same line (within the loop's range) overwrites it. -/
theorem stateAfter_committed (cfg : TypingEffectConfig) (text : List Char) (isLast : Bool)
    (totalLength lineStart : ℕ) (s : ℕ → ℚ) :
    ∀ f, f ≤ text.length + (if isLast then cfg.overshoot else 0) →
      ∀ k, k < f → k < text.length →
        (stateAfter cfg text isLast totalLength lineStart s f).buf.getD k Cell.blank
          = Cell.lit (text.getD k ' ') := by
  intro f
  induction f with
  | zero =>
    intro _ k hk _
    exact absurd hk (Nat.not_lt_zero k)
  | succ f ih =>
    intro hf k hk hkt
    have hfNv : f ≤ text.length + (if isLast then cfg.overshoot else 0) := by omega
    rw [stateAfter_succ]
    by_cases hfl : f < text.length
    · rw [lineFrame_typing_eq cfg text isLast totalLength lineStart s _ f hfl]
      by_cases hkf : k = f
      · subst hkf
        apply getD_set_self_of_lt
        rw [typingFoldState, foldl_shimmerStep_length, stateAfter_buf_length]
        omega
      · have hkf2 : k < f := by omega
        rw [getD_set_ne _ _ _ _ _ (fun h => hkf h.symm)]
        rw [typingFoldState, foldl_shimmerStep_notMem]
        · exact ih hfNv k hkf2 hkt
        · intro hmem
          have := (mem_range'_iff.mp hmem).1
          omega
    · have hkf2 : k < f := by omega
      cases isLast with
      | false =>
        rw [lineFrame_skip_eq cfg text totalLength lineStart s _ f hfl]
        exact ih hfNv k hkf2 hkt
      | true =>
        have hrem : 1 ≤ cfg.overshoot - (f - text.length) := by
          simp only [if_true] at hf
          omega
        rw [lineFrame_overshoot_eq cfg text totalLength lineStart s _ f hfl]
        rw [getD_set_ne _ _ _ _ _ (by omega)]
        rw [contractionFoldState, foldl_shimmerStep_notMem]
        · exact ih hfNv k hkf2 hkt
        · intro hmem
          have := (mem_range'_iff.mp hmem).1
          omega

/-- C10: once position `k` of a line is committed to the literal character
`text[k]` during typing, no later frame of that line's animation overwrites
any committed cell; every flush emitted by frame `f` shows the committed
literal prefix of length `min (f + 1) text.length`; and the final write of
the line is the full literal text padded to the display width between the
carriage return and the line break. -/
theorem committed_cells_stable (cfg : TypingEffectConfig) (text : List Char) (isLast : Bool)
    (totalLength lineStart width : ℕ) (s : ℕ → ℚ) :
    (∀ f, f ≤ text.length + (if isLast then cfg.overshoot else 0) →
        ∀ k, k < f → k < text.length →
          (stateAfter cfg text isLast totalLength lineStart s f).buf.getD k Cell.blank
            = Cell.lit (text.getD k ' '))
      ∧ (∀ f, f < text.length + (if isLast then cfg.overshoot else 0) →
          ∀ b, Ev.flushE b ∈ frameEvents cfg text isLast totalLength lineStart s f →
            ∀ k, k < min (f + 1) text.length →
              b.getD k Cell.blank = Cell.lit (text.getD k ' '))
      ∧ (typingLineEffectWithBrailleLoading cfg text isLast totalLength lineStart width
            s).getLast?
          = some (Ev.writeLine ('\r' :: (padEnd text width ++ ['\n']))) := by
  refine ⟨stateAfter_committed cfg text isLast totalLength lineStart s, ?_, ?_⟩
  · intro f hf b hb k hk
    have hkf : k < f + 1 := lt_of_lt_of_le hk (Nat.min_le_left _ _)
    have hkt : k < text.length := lt_of_lt_of_le hk (Nat.min_le_right _ _)
    by_cases hfl : f < text.length
    · rw [frameEvents, lineFrame_typing_eq cfg text isLast totalLength lineStart s _ f hfl]
        at hb
      simp only [List.mem_cons, List.not_mem_nil, or_false] at hb
      rcases hb with hb | hb
      · have hbuf : b = (stateAfter cfg text isLast totalLength lineStart s (f + 1)).buf := by
          rw [stateAfter_succ,
            lineFrame_typing_eq cfg text isLast totalLength lineStart s _ f hfl]
          exact (Ev.flushE.injEq _ _).mp hb
        rw [hbuf]
        exact stateAfter_committed cfg text isLast totalLength lineStart s (f + 1)
          (by omega) k hkf hkt
      · exact absurd hb (by simp)
    · cases isLast with
      | false =>
        simp only [Bool.false_eq_true, if_false, Nat.add_zero] at hf
        omega
      | true =>
        have hf2 : f < text.length + cfg.overshoot := by simpa using hf
        have hcommit := stateAfter_committed cfg text true totalLength lineStart s f
          (by simp; omega) k (by omega) hkt
        have hrem : 1 ≤ cfg.overshoot - (f - text.length) := by omega
        rw [frameEvents, lineFrame_overshoot_eq cfg text totalLength lineStart s _ f hfl]
          at hb
        have hb1 : (contractionFoldState cfg text s
            (stateAfter cfg text true totalLength lineStart s f) f).buf.getD k Cell.blank
            = Cell.lit (text.getD k ' ') := by
          rw [contractionFoldState, foldl_shimmerStep_notMem]
          · exact hcommit
          · intro hmem
            have := (mem_range'_iff.mp hmem).1
            omega
        simp only [List.mem_cons, List.not_mem_nil, or_false] at hb
        rcases hb with hb | hb | hb | hb
        · rw [(Ev.flushE.injEq _ _).mp hb]
          exact hb1
        · exact absurd hb (by simp)
        · rw [(Ev.flushE.injEq _ _).mp hb]
          rw [getD_set_ne _ _ _ _ _ (by omega)]
          exact hb1
        · exact absurd hb (by simp)
  · rw [typingLineEffectWithBrailleLoading, List.getLast?_concat]

/-- Witness for C10 on the line `"ab"` (not last, width 10): the committed
prefix facts, the flushed-prefix facts, and the final padded write. -/
theorem committed_cells_stable_witness :
    ((stateAfter persistCfg ("ab".toList) false 2 0 persistStreamA 2).buf.getD 0 Cell.blank
        = Cell.lit 'a')
      ∧ (typingLineEffectWithBrailleLoading persistCfg ("ab".toList) false 2 0 10
            persistStreamA).getLast?
          = some (Ev.writeLine ('\r' :: (padEnd ("ab".toList) 10 ++ ['\n']))) :=
  ⟨by
    have h := (committed_cells_stable persistCfg ("ab".toList) false 2 0 10
      persistStreamA).1 2 (by norm_num) 0 (by norm_num) (by norm_num)
    simpa using h,
  (committed_cells_stable persistCfg ("ab".toList) false 2 0 10 persistStreamA).2.2⟩

/-- Reading past the end of the buffer yields the default. -/
theorem getD_eq_default_of_le (l : List Cell) (k : ℕ) (d : Cell) (h : l.length ≤ k) :
    l.getD k d = d := by
  simp [List.getD_eq_getElem?_getD, List.getElem?_eq_none h]

/-- The idiom `Math.floor(Math.random() * (hi - lo + 1)) + lo` over integer
bounds `lo ≤ hi` and a draw in `[0, 1)` yields an integer in `[lo, hi]`. -/
theorem drawInt_bounds (lo hi : ℤ) (r : ℚ) (hle : lo ≤ hi) (hr0 : 0 ≤ r) (hr1 : r < 1) :
    (∃ z : ℤ, drawInt (lo : ℚ) (hi : ℚ) r = (z : ℚ))
      ∧ (lo : ℚ) ≤ drawInt (lo : ℚ) (hi : ℚ) r
      ∧ drawInt (lo : ℚ) (hi : ℚ) r ≤ (hi : ℚ) := by
  have hV : (0 : ℚ) < (hi : ℚ) - (lo : ℚ) + 1 := by
    have : (lo : ℚ) ≤ (hi : ℚ) := by exact_mod_cast hle
    linarith
  have hfl0 : (0 : ℤ) ≤ ⌊r * ((hi : ℚ) - (lo : ℚ) + 1)⌋ :=
    Int.floor_nonneg.mpr (mul_nonneg hr0 (le_of_lt hV))
  have hflub : ⌊r * ((hi : ℚ) - (lo : ℚ) + 1)⌋ ≤ hi - lo := by
    have hlt : r * ((hi : ℚ) - (lo : ℚ) + 1) < ((hi - lo + 1 : ℤ) : ℚ) := by
      push_cast
      nlinarith
    have := Int.floor_lt.mpr hlt
    omega
  refine ⟨⟨⌊r * ((hi : ℚ) - (lo : ℚ) + 1)⌋ + lo, by push_cast [drawInt]; ring⟩, ?_, ?_⟩
  · unfold drawInt
    have : (0 : ℚ) ≤ (⌊r * ((hi : ℚ) - (lo : ℚ) + 1)⌋ : ℚ) := by exact_mod_cast hfl0
    linarith
  · unfold drawInt
    have : ((⌊r * ((hi : ℚ) - (lo : ℚ) + 1)⌋ : ℤ) : ℚ) ≤ ((hi - lo : ℤ) : ℚ) := by
      exact_mod_cast hflub
    push_cast at this
    linarith

/-- After `t` contraction steps, the rightmost `t` overshoot cells (and
everything beyond the buffer) are blank. -/
theorem contraction_tail_blank (cfg : TypingEffectConfig) (text : List Char)
    (totalLength lineStart : ℕ) (s : ℕ → ℚ) :
    ∀ t, t ≤ cfg.overshoot → ∀ k, text.length + cfg.overshoot - t ≤ k →
      (stateAfter cfg text true totalLength lineStart s (text.length + t)).buf.getD k
          Cell.blank
        = Cell.blank := by
  intro t
  induction t with
  | zero =>
    intro _ k hk
    apply getD_eq_default_of_le
    rw [stateAfter_buf_length]
    simp only [if_true]
    omega
  | succ t ih =>
    intro ht k hk
    have hts : t ≤ cfg.overshoot := by omega
    rw [show text.length + (t + 1) = (text.length + t) + 1 by omega, stateAfter_succ]
    rw [lineFrame_overshoot_eq cfg text totalLength lineStart s _ (text.length + t)
      (by omega)]
    have htt : text.length + t - text.length = t := by omega
    rw [htt]
    by_cases hkidx : k = text.length + (cfg.overshoot - t) - 1
    · subst hkidx
      apply getD_set_self_of_lt
      rw [contractionFoldState, foldl_shimmerStep_length, stateAfter_buf_length]
      simp only [if_true]
      omega
    · rw [getD_set_ne _ _ _ _ _ (fun h => hkidx h.symm)]
      rw [contractionFoldState, foldl_shimmerStep_notMem]
      · exact ih hts k (by omega)
      · intro hmem
        have h2 := (mem_range'_iff.mp hmem).2
        omega

/-- Counting a prefix-true predicate over an interval range. -/
theorem length_filter_range' (p : ℕ → Bool) :
    ∀ (n a m : ℕ), a ≤ m → m ≤ a + n →
      (∀ k, a ≤ k → k < a + n → (p k = true ↔ k < m)) →
      ((List.range' a n).filter p).length = m - a := by
  intro n
  induction n with
  | zero =>
    intro a m h1 h2 _
    have : m = a := by omega
    simp [this]
  | succ n ih =>
    intro a m h1 h2 hp
    rw [List.range'_succ]
    by_cases hpa : p a = true
    · rw [List.filter_cons_of_pos hpa]
      have ham : a < m := (hp a (le_refl _) (by omega)).mp hpa
      have hrec := ih (a + 1) m (by omega) (by omega)
        (fun k hk1 hk2 => hp k (by omega) (by omega))
      simp only [List.length_cons, hrec]
      omega
    · rw [List.filter_cons_of_neg (by simpa using hpa)]
      have ham : ¬ a < m := fun h => hpa ((hp a (le_refl _) (by omega)).mpr h)
      have hma : m = a := by omega
      have hrec := ih (a + 1) (a + 1) (by omega) (by omega)
        (fun k hk1 hk2 => by
          constructor
          · intro hpk
            have := (hp k (by omega) (by omega)).mp hpk
            omega
          · intro hlt
            omega)
      rw [hrec]
      omega

/-- C4 (amended): on the final line, exactly `overshoot` contraction steps
occur, at frame indices `text.length + t` for `t < overshoot` and nowhere
else; each step re-randomizes every remaining overshoot cell, flushes, waits
a contraction delay drawn uniformly from the inclusive integer range
`[minContractionDelay, maxContractionDelay]`, blanks the rightmost remaining
overshoot cell, flushes again, and waits the SAME drawn delay once more (the
draw happens once per step, not freshly before each wait); after step `t`
exactly `overshoot - t - 1` overshoot cells are non-blank, and after all
steps every overshoot cell is blank. -/
theorem contraction_phase_spec (cfg : TypingEffectConfig) (text : List Char)
    (totalLength lineStart : ℕ) (s : ℕ → ℚ) (mc Mc : ℤ)
    (hmc : cfg.minContractionDelay = (mc : ℚ)) (hMc : cfg.maxContractionDelay = (Mc : ℚ))
    (hle : mc ≤ Mc) (hs : ∀ q, 0 ≤ s q ∧ s q < 1) :
    (∀ t, t < cfg.overshoot →
        ∃ b1 b2 d,
          frameEvents cfg text true totalLength lineStart s (text.length + t)
              = [Ev.flushE b1, Ev.waitContraction d, Ev.flushE b2, Ev.waitContraction d]
            ∧ (∃ z : ℤ, d = (z : ℚ))
            ∧ cfg.minContractionDelay ≤ d
            ∧ d ≤ cfg.maxContractionDelay
            ∧ (∀ k, text.length ≤ k → k < text.length + (cfg.overshoot - t) →
                ∃ g r, b1.getD k Cell.blank = Cell.shimmer g r)
            ∧ (∀ k, text.length + (cfg.overshoot - t) ≤ k →
                b1.getD k Cell.blank = Cell.blank)
            ∧ b2 = b1.set (text.length + (cfg.overshoot - t) - 1) Cell.blank
            ∧ b2 = (stateAfter cfg text true totalLength lineStart s
                (text.length + t + 1)).buf
            ∧ nonblankOvershootCells b2 text.length cfg.overshoot
                = cfg.overshoot - t - 1)
      ∧ (∀ k, text.length ≤ k →
          (stateAfter cfg text true totalLength lineStart s
              (text.length + cfg.overshoot)).buf.getD k Cell.blank = Cell.blank)
      ∧ (∀ f, f < text.length →
          ∀ e ∈ frameEvents cfg text true totalLength lineStart s f,
            ∀ q, e ≠ Ev.waitContraction q) := by
  refine ⟨?_, ?_, ?_⟩
  · intro t ht
    have hfl : ¬ text.length + t < text.length := by omega
    have hft : text.length + t - text.length = t := by omega
    have hCF : contractionFoldState cfg text s
        (stateAfter cfg text true totalLength lineStart s (text.length + t))
        (text.length + t)
        = (List.range' text.length (cfg.overshoot - t)).foldl (shimmerStep text s)
            { stateAfter cfg text true totalLength lineStart s (text.length + t) with
              pos := (stateAfter cfg text true totalLength lineStart s
                  (text.length + t)).pos + 1 + accelDrawCount cfg } := by
      rw [contractionFoldState, hft]
    have hlen1 : ({ stateAfter cfg text true totalLength lineStart s (text.length + t) with
        pos := (stateAfter cfg text true totalLength lineStart s
            (text.length + t)).pos + 1 + accelDrawCount cfg } : LineState).buf.length
        = text.length + cfg.overshoot := by
      show (stateAfter cfg text true totalLength lineStart s (text.length + t)).buf.length
        = text.length + cfg.overshoot
      rw [stateAfter_buf_length]
      simp
    have hb1len : (contractionFoldState cfg text s
        (stateAfter cfg text true totalLength lineStart s (text.length + t))
        (text.length + t)).buf.length = text.length + cfg.overshoot := by
      rw [hCF, foldl_shimmerStep_length, hlen1]
    have hb1tail : ∀ k, text.length + (cfg.overshoot - t) ≤ k →
        (contractionFoldState cfg text s
          (stateAfter cfg text true totalLength lineStart s (text.length + t))
          (text.length + t)).buf.getD k Cell.blank = Cell.blank := by
      intro k hk
      rw [hCF, foldl_shimmerStep_notMem]
      · show (stateAfter cfg text true totalLength lineStart s
            (text.length + t)).buf.getD k Cell.blank = Cell.blank
        apply contraction_tail_blank cfg text totalLength lineStart s t (by omega) k
          (by omega)
      · intro hmem
        have := (mem_range'_iff.mp hmem).2
        omega
    have hb1sh : ∀ k, text.length ≤ k → k < text.length + (cfg.overshoot - t) →
        ∃ g r, (contractionFoldState cfg text s
          (stateAfter cfg text true totalLength lineStart s (text.length + t))
          (text.length + t)).buf.getD k Cell.blank = Cell.shimmer g r := by
      intro k hk1 hk2
      rw [hCF]
      obtain ⟨p, _, hif⟩ := foldl_shimmerStep_mem text s
        (List.range' text.length (cfg.overshoot - t)) _ k
        (mem_range'_iff.mpr ⟨hk1, hk2⟩) (by rw [hlen1]; omega)
      by_cases hkt : k < text.length
      · omega
      · rw [if_neg hkt] at hif
        exact ⟨_, _, hif.2⟩
    refine ⟨(contractionFoldState cfg text s
        (stateAfter cfg text true totalLength lineStart s (text.length + t))
        (text.length + t)).buf,
      (contractionFoldState cfg text s
        (stateAfter cfg text true totalLength lineStart s (text.length + t))
        (text.length + t)).buf.set (text.length + (cfg.overshoot - t) - 1) Cell.blank,
      drawInt cfg.minContractionDelay cfg.maxContractionDelay
        (s (stateAfter cfg text true totalLength lineStart s (text.length + t)).pos),
      ?_, ?_, ?_, ?_, hb1sh, hb1tail, rfl, ?_, ?_⟩
    · rw [frameEvents, lineFrame_overshoot_eq cfg text totalLength lineStart s _
        (text.length + t) hfl, hft]
    · rw [hmc, hMc]
      exact (drawInt_bounds mc Mc _ hle (hs _).1 (hs _).2).1
    · rw [hmc, hMc]
      exact (drawInt_bounds mc Mc _ hle (hs _).1 (hs _).2).2.1
    · rw [hmc, hMc]
      exact (drawInt_bounds mc Mc _ hle (hs _).1 (hs _).2).2.2
    · rw [stateAfter_succ, lineFrame_overshoot_eq cfg text totalLength lineStart s _
        (text.length + t) hfl, hft]
    · unfold nonblankOvershootCells
      have hcount := length_filter_range'
        (fun k => decide (((contractionFoldState cfg text s
          (stateAfter cfg text true totalLength lineStart s (text.length + t))
          (text.length + t)).buf.set (text.length + (cfg.overshoot - t) - 1)
            Cell.blank).getD k Cell.blank ≠ Cell.blank))
        cfg.overshoot text.length (text.length + (cfg.overshoot - t) - 1)
        (by omega) (by omega) ?_
      · rw [hcount]
        omega
      · intro k hk1 hk2
        simp only [decide_eq_true_eq]
        by_cases hkidx : k = text.length + (cfg.overshoot - t) - 1
        · subst hkidx
          rw [getD_set_self_of_lt _ _ _ _ (by rw [hb1len]; omega)]
          simp
        · rw [getD_set_ne _ _ _ _ _ (fun h => hkidx h.symm)]
          by_cases hklt : k < text.length + (cfg.overshoot - t) - 1
          · obtain ⟨g, r, hgr⟩ := hb1sh k hk1 (by omega)
            rw [hgr]
            simp
            omega
          · rw [hb1tail k (by omega)]
            simp
            omega
  · intro k hk
    apply contraction_tail_blank cfg text totalLength lineStart s cfg.overshoot
      (le_refl _) k (by omega)
  · intro f hf e he q
    rw [frameEvents, lineFrame_typing_eq cfg text true totalLength lineStart s _ f hf]
      at he
    simp only [List.mem_cons, List.not_mem_nil, or_false] at he
    rcases he with he | he <;> subst he <;> exact fun h => Ev.noConfusion h

/-- Witness for C4 (amended): text `"a"`, overshoot 2, contraction delays
drawn from `[1, 20]`, constant stream `1/2`. -/
theorem contraction_phase_spec_witness :
    (∃ b1 b2 d,
        frameEvents { demoConfig with overshoot := 2 } ("a".toList) true 1 0
            (fun _ => 1 / 2) (1 + 0)
            = [Ev.flushE b1, Ev.waitContraction d, Ev.flushE b2, Ev.waitContraction d]
          ∧ (∃ z : ℤ, d = (z : ℚ))
          ∧ ({ demoConfig with overshoot := 2 } :
              TypingEffectConfig).minContractionDelay ≤ d
          ∧ d ≤ ({ demoConfig with overshoot := 2 } :
              TypingEffectConfig).maxContractionDelay
          ∧ (∀ k, 1 ≤ k → k < 1 + (2 - 0) → ∃ g r, b1.getD k Cell.blank = Cell.shimmer g r)
          ∧ (∀ k, 1 + (2 - 0) ≤ k → b1.getD k Cell.blank = Cell.blank)
          ∧ b2 = b1.set (1 + (2 - 0) - 1) Cell.blank
          ∧ b2 = (stateAfter { demoConfig with overshoot := 2 } ("a".toList) true 1 0
              (fun _ => 1 / 2) (1 + 0 + 1)).buf
          ∧ nonblankOvershootCells b2 1 2 = 2 - 0 - 1)
      ∧ (∀ k, 1 ≤ k →
          (stateAfter { demoConfig with overshoot := 2 } ("a".toList) true 1 0
              (fun _ => 1 / 2) (1 + 2)).buf.getD k Cell.blank = Cell.blank) := by
  have h := contraction_phase_spec { demoConfig with overshoot := 2 } ("a".toList) 1 0
    (fun _ => 1 / 2) 1 20 (by norm_num [demoConfig]) (by norm_num [demoConfig])
    (by norm_num) (fun q => ⟨by norm_num, by norm_num⟩)
  exact ⟨by simpa using h.1 0 (by norm_num), by simpa using h.2.1⟩

/-- C4 counterexample: within one contraction step the two waits always
carry the SAME drawn delay; the spec's "another freshly drawn
contractionDelay" (modelled by `specContractionStepDelays`, two independent
draws) can produce the wait pair `(3, 7)` over bounds `[0, 10]`, but no
random stream makes the code's step wait `3` then `7`. -/
theorem contraction_waits_not_fresh :
    (∃ r1 r2 : ℚ, (0 ≤ r1 ∧ r1 < 1) ∧ (0 ≤ r2 ∧ r2 < 1) ∧
        specContractionStepDelays 0 10 r1 r2 = (3, 7))
      ∧ ¬ ∃ (s : ℕ → ℚ) (b1 b2 : List Cell),
          frameEvents reusedDelayCfg ("a".toList) true 1 0 s 1
            = [Ev.flushE b1, Ev.waitContraction 3, Ev.flushE b2, Ev.waitContraction 7] := by
  constructor
  · refine ⟨3 / 11, 7 / 11, ⟨by norm_num, by norm_num⟩, ⟨by norm_num, by norm_num⟩, ?_⟩
    unfold specContractionStepDelays drawInt
    norm_num
  · rintro ⟨s, b1, b2, heq⟩
    rw [frameEvents, lineFrame_overshoot_eq _ _ _ _ _ _ 1 (by norm_num)] at heq
    simp only [List.cons.injEq, and_true] at heq
    have h3 := heq.2.1
    have h7 := heq.2.2.2
    rw [Ev.waitContraction.injEq] at h3 h7
    rw [h3] at h7
    norm_num at h7

/-- Every window index of a typing frame lies strictly between the typed
cell and the end of the buffer. -/
theorem typingWindow_bounds (cfg : TypingEffectConfig) (text : List Char) (isLast : Bool)
    (s : ℕ → ℚ) (st : LineState) (i : ℕ) :
    ∀ j ∈ typingWindow cfg text isLast s st i,
      i + 1 ≤ j ∧ j < text.length + (if isLast then cfg.overshoot else 0) := by
  intro j hj
  rw [typingWindow] at hj
  have hm := mem_range'_iff.mp hj
  refine ⟨hm.1, ?_⟩
  have hmin : min ⌊(i : ℚ) + drawInt cfg.minBrailleAhead cfg.brailleAhead
        (s (st.pos + 1 +
          (if cfg.minAccelerationMultiplier ≠ 0 ∧ cfg.maxAccelerationMultiplier ≠ 0
            then 1 else 0)))⌋
      ((text.length + (if isLast then cfg.overshoot else 0) : ℕ) - 1 : ℤ)
      ≤ ((text.length + (if isLast then cfg.overshoot else 0) : ℕ) : ℤ) - 1 := by
    have := min_le_right ⌊(i : ℚ) + drawInt cfg.minBrailleAhead cfg.brailleAhead
        (s (st.pos + 1 +
          (if cfg.minAccelerationMultiplier ≠ 0 ∧ cfg.maxAccelerationMultiplier ≠ 0
            then 1 else 0)))⌋
      ((text.length + (if isLast then cfg.overshoot else 0) : ℕ) - 1 : ℤ)
    omega
  have h2 := hm.2
  cases isLast <;> simp only [if_true, Bool.false_eq_true, if_false] at hmin h2 ⊢ <;> omega

/-- Every window cell of a typing frame is freshly redrawn, at stream
positions consumed by the window loop itself. -/
theorem typingFoldState_mem (cfg : TypingEffectConfig) (text : List Char) (isLast : Bool)
    (s : ℕ → ℚ) (st : LineState) (i j : ℕ)
    (hj : j ∈ typingWindow cfg text isLast s st i) (hlt : j < st.buf.length) :
    ∃ p, st.pos + 2 + accelDrawCount cfg ≤ p ∧
      (if j < text.length then
        p + 1 ≤ (typingFoldState cfg text isLast s st i).pos ∧
          (typingFoldState cfg text isLast s st i).buf.getD j Cell.blank
            = Cell.shimmer (brailleOfChar (text.getD j ' ')) (s p)
      else
        p + 2 ≤ (typingFoldState cfg text isLast s st i).pos ∧
          (typingFoldState cfg text isLast s st i).buf.getD j Cell.blank
            = Cell.shimmer (getRandomBrailleCharacter (s p)) (s (p + 1))) := by
  unfold typingFoldState
  exact foldl_shimmerStep_mem text s (typingWindow cfg text isLast s st i)
    { st with pos := st.pos + 2 + accelDrawCount cfg } j hj hlt

/-- C6 (amended): in a typing frame at index `f`, the emitted flush shows
the post-frame buffer; cell `f` is committed to the literal character; every
cell of the frame's ahead-window is overwritten with a decorative glyph
whose intensity (and, beyond the text, glyph) is read from the random stream
at positions consumed during this very frame; and every OTHER cell — in
particular any shimmer cell beyond the window left over from earlier frames
— persists unchanged into the flushed output. -/
theorem typing_frame_spec (cfg : TypingEffectConfig) (text : List Char) (isLast : Bool)
    (totalLength lineStart : ℕ) (s : ℕ → ℚ) (f : ℕ) (hf : f < text.length) :
    (∃ a d r, frameEvents cfg text isLast totalLength lineStart s f
        = [Ev.flushE ((stateAfter cfg text isLast totalLength lineStart s (f + 1)).buf),
           Ev.waitTyping a d r])
      ∧ (stateAfter cfg text isLast totalLength lineStart s (f + 1)).buf.getD f Cell.blank
          = Cell.lit (text.getD f ' ')
      ∧ (∀ j ∈ typingWindow cfg text isLast s
            (stateAfter cfg text isLast totalLength lineStart s f) f,
          ∃ p, (stateAfter cfg text isLast totalLength lineStart s f).pos ≤ p ∧
            p < (stateAfter cfg text isLast totalLength lineStart s (f + 1)).pos ∧
            ((j < text.length ∧
                (stateAfter cfg text isLast totalLength lineStart s (f + 1)).buf.getD j
                    Cell.blank
                  = Cell.shimmer (brailleOfChar (text.getD j ' ')) (s p))
              ∨ (¬ j < text.length ∧
                  p + 1 < (stateAfter cfg text isLast totalLength lineStart s (f + 1)).pos ∧
                  (stateAfter cfg text isLast totalLength lineStart s (f + 1)).buf.getD j
                      Cell.blank
                    = Cell.shimmer (getRandomBrailleCharacter (s p)) (s (p + 1)))))
      ∧ (∀ j, j ≠ f →
          j ∉ typingWindow cfg text isLast s
            (stateAfter cfg text isLast totalLength lineStart s f) f →
          (stateAfter cfg text isLast totalLength lineStart s (f + 1)).buf.getD j Cell.blank
            = (stateAfter cfg text isLast totalLength lineStart s f).buf.getD j
                Cell.blank) := by
  have hlen : (stateAfter cfg text isLast totalLength lineStart s f).buf.length
      = text.length + (if isLast then cfg.overshoot else 0) :=
    stateAfter_buf_length cfg text isLast totalLength lineStart s f
  refine ⟨?_, ?_, ?_, ?_⟩
  · rw [frameEvents, stateAfter_succ,
      lineFrame_typing_eq cfg text isLast totalLength lineStart s _ f hf]
    exact ⟨_, _, _, rfl⟩
  · rw [stateAfter_succ, lineFrame_typing_eq cfg text isLast totalLength lineStart s _ f hf]
    apply getD_set_self_of_lt
    rw [typingFoldState, foldl_shimmerStep_length]
    show f < (stateAfter cfg text isLast totalLength lineStart s f).buf.length
    rw [hlen]
    omega
  · intro j hj
    have hjb := typingWindow_bounds cfg text isLast s
      (stateAfter cfg text isLast totalLength lineStart s f) f j hj
    rw [stateAfter_succ, lineFrame_typing_eq cfg text isLast totalLength lineStart s _ f hf]
    obtain ⟨p, hp1, hp2⟩ := typingFoldState_mem cfg text isLast s
      (stateAfter cfg text isLast totalLength lineStart s f) f j hj
      (by rw [hlen]; exact hjb.2)
    refine ⟨p, by omega, ?_⟩
    rw [getD_set_ne _ _ _ _ _ (by omega)]
    by_cases hjt : j < text.length
    · rw [if_pos hjt] at hp2
      exact ⟨by
        show p < (typingFoldState cfg text isLast s
          (stateAfter cfg text isLast totalLength lineStart s f) f).pos + 1
        omega, Or.inl ⟨hjt, hp2.2⟩⟩
    · rw [if_neg hjt] at hp2
      refine ⟨?_, Or.inr ⟨hjt, ?_, hp2.2⟩⟩
      · show p < (typingFoldState cfg text isLast s
          (stateAfter cfg text isLast totalLength lineStart s f) f).pos + 1
        omega
      · show p + 1 < (typingFoldState cfg text isLast s
          (stateAfter cfg text isLast totalLength lineStart s f) f).pos + 1
        omega
  · intro j hjf hjw
    rw [stateAfter_succ, lineFrame_typing_eq cfg text isLast totalLength lineStart s _ f hf]
    rw [getD_set_ne _ _ _ _ _ (fun h => hjf h.symm)]
    rw [typingFoldState, foldl_shimmerStep_notMem _ _ _ _ _ hjw]

/-- Witness for C6 (amended) at frame 0 of the line `"abcd"`: the committed
cell and the persistence of untouched cells. -/
theorem typing_frame_spec_witness :
    (0 : ℕ) < ("abcd".toList).length ∧
      ((stateAfter persistCfg ("abcd".toList) false 4 0 persistStreamA (0 + 1)).buf.getD 0
          Cell.blank = Cell.lit (("abcd".toList).getD 0 ' ')) :=
  ⟨by norm_num,
    (typing_frame_spec persistCfg ("abcd".toList) false 4 0 persistStreamA 0
      (by norm_num)).2.1⟩

/-- C6 counterexample: two random streams that agree at every position
except position 4 — a draw consumed during frame 0 (frame 1 begins at
stream position 6) — produce different flushed outputs for frame 1 of the
line `"abcd"`: the shimmer cell at index 3, outside frame 1's window, still
shows frame 0's randomly drawn intensity (`7/10` versus `9/10`) in frame 1's
flush.  Random state from a previous frame does persist into the flushed
output of the current frame. -/
theorem typing_frame_persists_previous_draws :
    (∀ q, q ≠ 4 → persistStreamA q = persistStreamB q)
      ∧ (∀ q, 0 ≤ persistStreamA q ∧ persistStreamA q < 1)
      ∧ (∀ q, 0 ≤ persistStreamB q ∧ persistStreamB q < 1)
      ∧ (stateAfter persistCfg ("abcd".toList) false 4 0 persistStreamA 1).pos = 6
      ∧ (stateAfter persistCfg ("abcd".toList) false 4 0 persistStreamB 1).pos = 6
      ∧ frameEvents persistCfg ("abcd".toList) false 4 0 persistStreamA 1
          ≠ frameEvents persistCfg ("abcd".toList) false 4 0 persistStreamB 1 := by
  have hch1 : ("abcd".toList).getD 0 ' ' = 'a' := by decide
  have hch2 : ("abcd".toList).getD 1 ' ' = 'b' := by decide
  have hbr1 : brailleOfChar 'b' = '⠃' := by decide
  have hbr2 : brailleOfChar 'c' = '⠉' := by decide
  have hbr3 : brailleOfChar 'd' = '⠙' := by decide
  have hsq : getKeyDistanceSq 'a' 'b' = 17 := by
    unfold getKeyDistanceSq
    rw [show keyboardLayout (Char.toLower 'a') = some (0, 2) from by decide,
      show keyboardLayout (Char.toLower 'b') = some (4, 3) from by decide]
    norm_num
  have hA : stateAfter persistCfg ("abcd".toList) false 4 0 persistStreamA 1
      = ⟨[Cell.lit 'a', Cell.shimmer '⠃' 0, Cell.shimmer '⠉' 0,
          Cell.shimmer '⠙' (7 / 10)], some 'a', 6⟩ := by
    norm_num [stateAfter, initState, lineFrame, typingFoldState, typingWindow,
      accelerationMultiplier, accelDrawCount, shimmerStep, drawInt, persistCfg,
      persistStreamA, hch1, hbr1, hbr2, hbr3, List.range_succ, List.range', List.foldl]
    rfl
  have hB : stateAfter persistCfg ("abcd".toList) false 4 0 persistStreamB 1
      = ⟨[Cell.lit 'a', Cell.shimmer '⠃' 0, Cell.shimmer '⠉' 0,
          Cell.shimmer '⠙' (9 / 10)], some 'a', 6⟩ := by
    norm_num [stateAfter, initState, lineFrame, typingFoldState, typingWindow,
      accelerationMultiplier, accelDrawCount, shimmerStep, drawInt, persistCfg,
      persistStreamB, hch1, hbr1, hbr2, hbr3, List.range_succ, List.range', List.foldl]
    rfl
  have hFA : frameEvents persistCfg ("abcd".toList) false 4 0 persistStreamA 1
      = [Ev.flushE [Cell.lit 'a', Cell.lit 'b', Cell.shimmer '⠉' 0,
          Cell.shimmer '⠙' (7 / 10)], Ev.waitTyping 10 17 0] := by
    rw [frameEvents, hA]
    norm_num [lineFrame, typingFoldState, typingWindow, accelerationMultiplier,
      accelDrawCount, shimmerStep, drawInt, persistCfg, persistStreamA,
      adjustedBaseDelay, calculateAccelerationFactor, hch2, hbr2, hsq,
      List.range', List.foldl]
  have hFB : frameEvents persistCfg ("abcd".toList) false 4 0 persistStreamB 1
      = [Ev.flushE [Cell.lit 'a', Cell.lit 'b', Cell.shimmer '⠉' 0,
          Cell.shimmer '⠙' (9 / 10)], Ev.waitTyping 10 17 0] := by
    rw [frameEvents, hB]
    norm_num [lineFrame, typingFoldState, typingWindow, accelerationMultiplier,
      accelDrawCount, shimmerStep, drawInt, persistCfg, persistStreamB,
      adjustedBaseDelay, calculateAccelerationFactor, hch2, hbr2, hsq,
      List.range', List.foldl]
  refine ⟨?_, ?_, ?_, by rw [hA], by rw [hB], ?_⟩
  · intro q hq
    simp [persistStreamA, persistStreamB, hq]
  · intro q
    unfold persistStreamA
    split_ifs <;> norm_num
  · intro q
    unfold persistStreamB
    split_ifs <;> norm_num
  · rw [hFA, hFB]
    intro h
    simp only [List.cons.injEq, Ev.flushE.injEq, Cell.shimmer.injEq] at h
    have := h.1.2.2.2.1.2
    norm_num at this

/-- C7: `getKeyDistance` is symmetric, unchanged when either argument changes
case, and returns exactly `1` whenever either case-folded symbol is absent
from the coordinate table. -/
theorem getKeyDistance_spec :
    (∀ a b : Char, getKeyDistance a b = getKeyDistance b a)
      ∧ (∀ a b : Char,
          getKeyDistance a.toUpper b = getKeyDistance a b
            ∧ getKeyDistance a.toLower b = getKeyDistance a b
            ∧ getKeyDistance a b.toUpper = getKeyDistance a b
            ∧ getKeyDistance a b.toLower = getKeyDistance a b)
      ∧ (∀ a b : Char,
          (keyboardLayout a.toLower = none ∨ keyboardLayout b.toLower = none) →
            getKeyDistance a b = 1) := by
  refine ⟨?_, ?_, ?_⟩
  · intro a b
    unfold getKeyDistance
    cases ha : keyboardLayout a.toLower <;> cases hb : keyboardLayout b.toLower <;>
      simp only
    congr 1
    push_cast
    ring
  · intro a b
    refine ⟨?_, ?_, ?_, ?_⟩ <;> unfold getKeyDistance
    · rw [toLower_toUpper]
    · rw [toLower_toLower]
    · rw [toLower_toUpper]
    · rw [toLower_toLower]
  · intro a b h
    unfold getKeyDistance
    rcases h with h | h <;>
      cases ha : keyboardLayout a.toLower <;> cases hb : keyboardLayout b.toLower <;>
        simp_all

/-- Witness for C7: the tilde is absent from the table, so its distance to
`a` is the default `1`. -/
theorem getKeyDistance_spec_witness :
    keyboardLayout (Char.toLower '~') = none ∧ getKeyDistance '~' 'a' = 1 :=
  ⟨by decide, getKeyDistance_spec.2.2 '~' 'a' (Or.inl (by decide))⟩

end TypingFx
